import Mathlib

/-!
Verification of the object-database core of a content-addressed
version-control engine (a small git re-implementation in Rust).

Bytes are modelled as natural numbers (values 0..255 where it matters);
byte strings as `List Nat`.  Pure functions of the source are translated
to Lean functions; the loose-object store and the repository file system
are modelled as explicit association lists; zlib compression/inflation
round-trips and is modelled as the identity on stored bytes; SHA-1 is
modelled as an abstract hash-function parameter (its 40-character
lowercase hex rendering).
-/

/-- ASCII bytes of a (pure-ASCII) string literal. -/
def strB (s : String) : List Nat := s.data.map Char.toNat

/-- ASCII decimal digit test, as used by nom `digit1` / `is_digit`. -/
def isDigitB (b : Nat) : Bool := 48 ≤ b && b ≤ 57

/-- ASCII hex digit test, as used by nom `is_hex_digit` (0-9, A-F, a-f). -/
def isHexB (b : Nat) : Bool :=
  (48 ≤ b && b ≤ 57) || (65 ≤ b && b ≤ 70) || (97 ≤ b && b ≤ 102)

/-- Fuel-driven helper for the ASCII decimal rendering (structural
recursion, so that concrete instances evaluate inside the kernel). -/
def decDigitsAux : Nat → Nat → List Nat
  | 0, _ => []
  | fuel + 1, n =>
    if n < 10 then [48 + n]
    else decDigitsAux fuel (n / 10) ++ [48 + n % 10]

/-- ASCII decimal rendering of a natural number, as produced by
Rust `format!("{n}")` / `write!("{}", n)`. -/
def decDigits (n : Nat) : List Nat := decDigitsAux (n + 1) n

theorem decDigitsAux_fuel_irrel : ∀ (n f1 f2 : Nat), n < f1 → n < f2 →
    decDigitsAux f1 n = decDigitsAux f2 n := by
  intro n
  induction n using Nat.strong_induction_on with
  | _ n ih =>
    intro f1 f2 h1 h2
    match f1, f2 with
    | g1 + 1, g2 + 1 =>
      simp only [decDigitsAux]
      split
      · rfl
      · have hlt : n / 10 < n := Nat.div_lt_self (by omega) (by norm_num)
        rw [ih (n / 10) hlt g1 g2 (by omega) (by omega)]

/-- The defining recurrence of `decDigits`. -/
theorem decDigits_eq (n : Nat) :
    decDigits n = if n < 10 then [48 + n] else decDigits (n / 10) ++ [48 + n % 10] := by
  show decDigitsAux (n + 1) n = _
  simp only [decDigitsAux]
  split
  · rfl
  · have hlt : n / 10 < n := Nat.div_lt_self (by omega) (by norm_num)
    rw [decDigitsAux_fuel_irrel (n / 10) n (n / 10 + 1) (by omega) (by omega)]
    rfl

/-- Numeric value of a run of ASCII decimal digits (as read by
`str::parse` after `digit1`). -/
def decVal (ds : List Nat) : Nat := ds.foldl (fun acc d => acc * 10 + (d - 48)) 0

theorem decDigits_ne_nil (n : Nat) : decDigits n ≠ [] := by
  rw [decDigits_eq]
  split <;> simp

theorem decDigits_all_digits (n : Nat) : ∀ b ∈ decDigits n, isDigitB b = true := by
  induction n using Nat.strong_induction_on with
  | _ n ih =>
    rw [decDigits_eq]
    split
    · intro b hb
      simp only [List.mem_singleton] at hb
      subst hb
      simp only [isDigitB, Bool.and_eq_true, decide_eq_true_eq]
      omega
    · intro b hb
      rw [List.mem_append] at hb
      rcases hb with hb | hb
      · exact ih (n / 10) (Nat.div_lt_self (by omega) (by norm_num)) b hb
      · simp only [List.mem_singleton] at hb
        subst hb
        simp only [isDigitB, Bool.and_eq_true, decide_eq_true_eq]
        omega

theorem decVal_append (xs ys : List Nat) :
    decVal (xs ++ ys) = ys.foldl (fun acc d => acc * 10 + (d - 48)) (decVal xs) := by
  simp [decVal, List.foldl_append]

theorem decVal_decDigits (n : Nat) : decVal (decDigits n) = n := by
  induction n using Nat.strong_induction_on with
  | _ n ih =>
    rw [decDigits_eq]
    split
    · simp only [decVal, List.foldl_cons, List.foldl_nil]
      omega
    · rw [decVal_append, ih (n / 10) (Nat.div_lt_self (by omega) (by norm_num))]
      simp only [List.foldl_cons, List.foldl_nil]
      omega

/-- Lexicographic comparison of byte lists, as Rust's `Ord` on byte
slices (`left.cmp(right)`): element-wise, shorter-prefix-first. -/
def lexCmp : List Nat → List Nat → Ordering
  | [], [] => .eq
  | [], _ :: _ => .lt
  | _ :: _, [] => .gt
  | a :: as, b :: bs =>
    match compare a b with
    | .eq => lexCmp as bs
    | o => o

/-- Insert into a list sorted by `lexCmp`. -/
def lexInsert (x : List Nat) : List (List Nat) → List (List Nat)
  | [] => [x]
  | y :: ys =>
    match lexCmp x y with
    | .gt => y :: lexInsert x ys
    | _ => x :: y :: ys

/-- Sort a list of byte strings lexicographically (used only to state a
deterministic directory listing, as the repository's own test sorts
filenames before comparing). -/
def lexSort : List (List Nat) → List (List Nat)
  | [] => []
  | x :: xs => lexInsert x (lexSort xs)

/-! ## C8 — `init` creates the store skeleton

From `src/cmds/init.rs`: create `.git`, `.git/objects`, `.git/refs`,
`.git/refs/heads`, `.git/refs/tags`, then write `.git/HEAD` and
`.git/config`.  A failing `create_dir`/`write` aborts the whole
sequence (the `and_then` chain). -/

/-- A simple file system: the set of created directories (as byte-string
segment paths) and the written files with contents.  The root directory
in which `init` runs is the empty path. -/
structure SimpleFS where
  dirs : List (List (List Nat))
  files : List (List (List Nat) × List Nat)
deriving DecidableEq

def SimpleFS.empty : SimpleFS := ⟨[], []⟩

/-- `fs::create_dir`: fails if the directory already exists or the
parent directory is missing. -/
def createDir (fs : SimpleFS) (p : List (List Nat)) : Option SimpleFS :=
  if fs.dirs.contains p then none
  else if p.dropLast = [] || fs.dirs.contains p.dropLast then
    some { fs with dirs := fs.dirs ++ [p] }
  else none

/-- `fs::write`: creates or truncates the file; fails if the parent
directory is missing. -/
def writeFileAt (fs : SimpleFS) (p : List (List Nat)) (c : List Nat) : Option SimpleFS :=
  if p.dropLast = [] || fs.dirs.contains p.dropLast then
    some { fs with files := (p, c) :: fs.files.filter (fun e => e.1 ≠ p) }
  else none

def readFileAt (fs : SimpleFS) (p : List (List Nat)) : Option (List Nat) :=
  (fs.files.find? (fun e => e.1 == p)).map (·.2)

/-- The default config written by `init` (the Rust string literal starts
with a newline). -/
def initConfig : List Nat :=
  strB "\n[core]\n\trepositoryformatversion = 0\n\tfilemode = true\n\tbare = false\n\tlogallrefupdates = true\n"

/-- `init` from `src/cmds/init.rs`, run at the repository root. -/
def initCmd (fs : SimpleFS) : Option SimpleFS :=
  (createDir fs [strB ".git"]).bind fun fs =>
  (createDir fs [strB ".git", strB "objects"]).bind fun fs =>
  (createDir fs [strB ".git", strB "refs"]).bind fun fs =>
  (createDir fs [strB ".git", strB "refs", strB "heads"]).bind fun fs =>
  (createDir fs [strB ".git", strB "refs", strB "tags"]).bind fun fs =>
  (writeFileAt fs [strB ".git", strB "HEAD"] (strB "ref: refs/heads/main\n")).bind fun fs =>
  writeFileAt fs [strB ".git", strB "config"] initConfig

/-- Names of the entries directly inside the store directory `.git`. -/
def topLevelEntries (fs : SimpleFS) : List (List Nat) :=
  (fs.dirs.filterMap fun p =>
    match p with
    | [d, x] => if d = strB ".git" then some x else none
    | _ => none) ++
  (fs.files.filterMap fun e =>
    match e.1 with
    | [d, x] => if d = strB ".git" then some x else none
    | _ => none)

/-- C8: running `init` in an empty directory creates exactly the four
top-level entries HEAD, config, objects, refs under the store directory,
and HEAD contains exactly the bytes of `ref: refs/heads/main` followed
by a newline. -/
theorem c8_init_layout :
    (initCmd SimpleFS.empty).map
      (fun fs => (lexSort (topLevelEntries fs), readFileAt fs [strB ".git", strB "HEAD"])) =
    some ([strB "HEAD", strB "config", strB "objects", strB "refs"],
          some (strB "ref: refs/heads/main\n")) := by
  decide

/-! ## C5 — `find_object` (the store's `locate`) from `src/utils.rs` -/

inductive LocateErr
  /-- the `ensure!(hash.len() > 3, ...)` rejection -/
  | tooShort
  /-- the `.with_context(|| format!("failed to find {hash}"))` failure -/
  | notFound
deriving DecidableEq

/-- A listing of the `.git/objects` directory: each subdirectory name
paired with the filenames it contains, in directory order. -/
abbrev ObjectsDir := List (List Nat × List (List Nat))

/-- The filename predicate of `find_object`: 38-character name
(`SHA_DISPLAY_LEN - 2`) starting with the query remainder. -/
def fileMatches (shaFile f : List Nat) : Bool :=
  f.length == 38 && shaFile.isPrefixOf f

/-- `find_object` from `src/utils.rs`: reject queries of length `≤ 3`,
split the query after two characters, find the subdirectory by exact
name, then find the first filename of length 38 starting with the rest
of the query. -/
def find_object (hash : List Nat) (dirs : ObjectsDir) : Except LocateErr (List Nat) :=
  if hash.length ≤ 3 then .error .tooShort
  else
    match dirs.find? (fun e => e.1 == hash.take 2) with
    | none => .error .notFound
    | some (_, files) =>
      match files.find? (fileMatches (hash.drop 2)) with
      | none => .error .notFound
      | some f => .ok f

theorem find?_first {α : Type} {p : α → Bool} (pre : List α) (x : α) (post : List α)
    (hpre : ∀ a ∈ pre, p a = false) (hx : p x = true) :
    (pre ++ x :: post).find? p = some x := by
  induction pre with
  | nil => simp [List.find?, hx]
  | cons a as ih =>
    have ha : p a = false := hpre a (by simp)
    simp only [List.cons_append, List.find?, ha]
    exact ih fun b hb => hpre b (by simp [hb])

/-- C5: queries shorter than 4 characters are rejected; otherwise the
first two characters select the objects subdirectory and the rest is a
prefix filter over 38-character filenames, with `NotFound` when the
subdirectory is missing or no filename matches, and the first matching
filename (in directory order) returned otherwise. -/
theorem c5_locate (hash : List Nat) (dirs : ObjectsDir) :
    (hash.length < 4 → find_object hash dirs = .error .tooShort) ∧
    (4 ≤ hash.length →
      ((∀ d ∈ dirs, d.1 ≠ hash.take 2) → find_object hash dirs = .error .notFound) ∧
      (∀ pre files post, dirs = pre ++ (hash.take 2, files) :: post →
        (∀ d ∈ pre, d.1 ≠ hash.take 2) →
        ((∀ f ∈ files, ¬(f.length = 38 ∧ hash.drop 2 <+: f)) →
            find_object hash dirs = .error .notFound) ∧
        (∀ fpre f fpost, files = fpre ++ f :: fpost →
          (∀ g ∈ fpre, ¬(g.length = 38 ∧ hash.drop 2 <+: g)) →
          f.length = 38 → hash.drop 2 <+: f →
          find_object hash dirs = .ok f))) := by
  constructor
  · intro hlen
    simp [find_object, Nat.le_of_lt_succ hlen, show hash.length ≤ 3 by omega]
  · intro hlen
    have hnotshort : ¬ hash.length ≤ 3 := by omega
    constructor
    · intro hmiss
      have : dirs.find? (fun e => e.1 == hash.take 2) = none := by
        rw [List.find?_eq_none]
        intro d hd
        simpa using hmiss d hd
      simp [find_object, hnotshort, this]
    · intro pre files post hdirs hpre
      have hfind : dirs.find? (fun e => e.1 == hash.take 2) = some (hash.take 2, files) := by
        rw [hdirs]
        apply find?_first
        · intro a ha
          simpa using hpre a ha
        · simp
      constructor
      · intro hnone
        have : files.find? (fileMatches (hash.drop 2)) = none := by
          rw [List.find?_eq_none]
          intro f hf
          have hn := hnone f hf
          simp only [fileMatches, Bool.and_eq_true, beq_iff_eq, List.isPrefixOf_iff_prefix]
          intro hcon
          exact hn hcon
        simp [find_object, hnotshort, hfind, this]
      · intro fpre f fpost hfiles hfpre hf38 hfp
        have : files.find? (fileMatches (hash.drop 2)) = some f := by
          rw [hfiles]
          apply find?_first
          · intro g hg
            have hgn := hfpre g hg
            rw [Bool.eq_false_iff]
            simp only [ne_eq, fileMatches, Bool.and_eq_true, beq_iff_eq,
              List.isPrefixOf_iff_prefix]
            intro hcon
            exact hgn hcon
          · simp only [fileMatches, Bool.and_eq_true, beq_iff_eq, List.isPrefixOf_iff_prefix]
            exact ⟨hf38, hfp⟩
        simp [find_object, hnotshort, hfind, this]

def c5File : List Nat := strB "cd" ++ List.replicate 36 48

def c5Dirs : ObjectsDir :=
  [(strB "xx", []), (strB "ab", [List.replicate 38 48, c5File])]

theorem c5_locate_witness :
    find_object (strB "abcd") c5Dirs = .ok c5File := by
  exact ((((c5_locate (strB "abcd") c5Dirs).2 (by decide)).2
    [(strB "xx", [])] [List.replicate 38 48, c5File] [] (by decide)
    (by decide)).2) [List.replicate 38 48] c5File [] (by decide)
    (by decide) (by decide) (by decide)

/-! ## C10 — the oneline log renderer can panic (`src/cmds/log.rs`)

`log --oneline` runs `message.replace('\n', " ")`, then when the byte
length exceeds 40 slices `&message[..37]` and appends `"..."`; the byte
slice panics when index 37 is not a UTF-8 character boundary. -/

/-- `message.replace('\n', " ")` at the byte level (in valid UTF-8 the
byte 0x0A only ever encodes the newline character). -/
def replaceNlWithSpace (m : List Nat) : List Nat :=
  m.map fun b => if b = 10 then 32 else b

/-- Rust `str::is_char_boundary` at the byte level: true at either end,
otherwise the byte at `i` must not be a UTF-8 continuation byte. -/
def isCharBoundary (m : List Nat) (i : Nat) : Bool :=
  if i = 0 || i = m.length then true
  else
    match m.get? i with
    | some b => !(128 ≤ b && b < 192)
    | none => false

/-- UTF-8 validity of a byte sequence (RFC 3629), the invariant Rust
enforces for every `String`/`str`. -/
def validUtf8 : List Nat → Bool
  | [] => true
  | b :: rest =>
    if b < 128 then validUtf8 rest
    else if 194 ≤ b && b ≤ 223 then
      match rest with
      | c1 :: rest => (128 ≤ c1 && c1 ≤ 191) && validUtf8 rest
      | _ => false
    else if b = 224 then
      match rest with
      | c1 :: c2 :: rest => (160 ≤ c1 && c1 ≤ 191) && (128 ≤ c2 && c2 ≤ 191) && validUtf8 rest
      | _ => false
    else if (225 ≤ b && b ≤ 236) || b = 238 || b = 239 then
      match rest with
      | c1 :: c2 :: rest => (128 ≤ c1 && c1 ≤ 191) && (128 ≤ c2 && c2 ≤ 191) && validUtf8 rest
      | _ => false
    else if b = 237 then
      match rest with
      | c1 :: c2 :: rest => (128 ≤ c1 && c1 ≤ 159) && (128 ≤ c2 && c2 ≤ 191) && validUtf8 rest
      | _ => false
    else if b = 240 then
      match rest with
      | c1 :: c2 :: c3 :: rest =>
        (144 ≤ c1 && c1 ≤ 191) && (128 ≤ c2 && c2 ≤ 191) && (128 ≤ c3 && c3 ≤ 191) &&
          validUtf8 rest
      | _ => false
    else if 241 ≤ b && b ≤ 243 then
      match rest with
      | c1 :: c2 :: c3 :: rest =>
        (128 ≤ c1 && c1 ≤ 191) && (128 ≤ c2 && c2 ≤ 191) && (128 ≤ c3 && c3 ≤ 191) &&
          validUtf8 rest
      | _ => false
    else if b = 244 then
      match rest with
      | c1 :: c2 :: c3 :: rest =>
        (128 ≤ c1 && c1 ≤ 143) && (128 ≤ c2 && c2 ≤ 191) && (128 ≤ c3 && c3 ≤ 191) &&
          validUtf8 rest
      | _ => false
    else false

/-- The `--oneline` message rendering of `log`: replace newlines with
spaces, and when more than 40 bytes remain, take the first 37 bytes
(`&message[..37]`) and append `"..."`.  The byte slice panics when index
37 is not a character boundary; the panic is modelled as `none`. -/
def onelineMessage (message : List Nat) : Option (List Nat) :=
  let message := replaceNlWithSpace message
  if 40 < message.length then
    if isCharBoundary message 37 then some (message.take 37 ++ strB "...")
    else none
  else some message

/-- 36 ASCII bytes, then a two-byte UTF-8 character (U+00E9), then three
more ASCII bytes: 41 bytes in all, with byte 37 a continuation byte. -/
def c10Message : List Nat := List.replicate 36 97 ++ [195, 169] ++ [98, 98, 98]

/-- C10: the oneline renderer is not total over commit messages — this
valid-UTF-8 message exceeds 40 bytes after newline replacement and its
byte 37 is not a character boundary, so the `&message[..37]` slice
panics. -/
theorem c10_oneline_panics :
    validUtf8 c10Message = true ∧
    40 < (replaceNlWithSpace c10Message).length ∧
    onelineMessage c10Message = none := by
  decide

/-! ## C2 — tree builder entry ordering (`src/cmds/write_tree.rs`)

`write_tree_at` sorts collected entries with the comparator: compare the
common-length prefixes of the names; if equal, longer name first
(`left.len().cmp(&right.len()).reverse()`), otherwise plain byte order
(`left.cmp(right)`), then encodes each entry as
`"<mode> <name>\0<hash20>"`. -/

/-- A directory entry collected by `write_tree_at`. -/
structure TEntry where
  mode : Nat
  name : List Nat
  hash : List Nat
deriving DecidableEq

/-- The comparator of `write_tree_at`'s `sort_unstable_by`:
`small_len` is the length of the shorter name; equal prefixes of that
length fall back to the reversed length comparison. -/
def treeCmp (l r : List Nat) : Ordering :=
  if l.take (min l.length r.length) = r.take (min l.length r.length) then
    (compare l.length r.length).swap
  else lexCmp l r

/-- Insertion step of the sort modelled on `sort_unstable_by`. -/
def insertEntry (e : TEntry) : List TEntry → List TEntry
  | [] => [e]
  | x :: xs =>
    match treeCmp e.name x.name with
    | .gt => x :: insertEntry e xs
    | _ => e :: x :: xs

/-- The sorted entry sequence produced by `write_tree_at` (any sort with
the source's comparator produces this sequence when names are distinct —
proved below). -/
def sortEntries : List TEntry → List TEntry
  | [] => []
  | x :: xs => insertEntry x (sortEntries xs)

/-- Encoding of a single tree entry: `"<mode> <name>\0<hash20>"`. -/
def encodeEntry (e : TEntry) : List Nat :=
  decDigits e.mode ++ [32] ++ e.name ++ [0] ++ e.hash

/-- The emitted tree body: the sorted entries, each encoded. -/
def treeBody (entries : List TEntry) : List Nat :=
  ((sortEntries entries).map encodeEntry).flatten

/-- The ordering stated by the spec: byte-lexicographic on names, except
that when one name is a proper byte-prefix of the other the LONGER name
sorts first. -/
def specTreeLt (a b : List Nat) : Prop :=
  (b <+: a ∧ b ≠ a) ∨ (¬ a <+: b ∧ ¬ b <+: a ∧ List.Lex (· < ·) a b)


theorem natCompare_swap (a b : Nat) : compare b a = (compare a b).swap := by
  rcases Nat.lt_trichotomy a b with h | h | h
  · rw [Nat.compare_eq_lt.mpr h, Nat.compare_eq_gt.mpr h]
    rfl
  · subst h
    rw [Nat.compare_eq_eq.mpr rfl]
    rfl
  · rw [Nat.compare_eq_gt.mpr h, Nat.compare_eq_lt.mpr h]
    rfl

theorem lexCmp_swap (a b : List Nat) : lexCmp b a = (lexCmp a b).swap := by
  induction a generalizing b with
  | nil => cases b <;> rfl
  | cons x xs ih =>
    cases b with
    | nil => rfl
    | cons y ys =>
      simp only [lexCmp]
      rw [natCompare_swap x y]
      rcases h : compare x y with _ | _ | _ <;> simp [h, Ordering.swap, ih]

theorem lexCmp_eq_iff (a b : List Nat) : lexCmp a b = .eq ↔ a = b := by
  induction a generalizing b with
  | nil => cases b <;> simp [lexCmp]
  | cons x xs ih =>
    cases b with
    | nil => simp [lexCmp]
    | cons y ys =>
      simp only [lexCmp]
      rcases h : compare x y with _ | _ | _
      · have hne : x ≠ y := by
          intro he
          rw [he, Nat.compare_eq_eq.mpr rfl] at h
          cases h
        simp [hne]
      · have he : x = y := Nat.compare_eq_eq.mp h
        subst he
        simp [ih]
      · have hne : x ≠ y := by
          intro he
          rw [he, Nat.compare_eq_eq.mpr rfl] at h
          cases h
        simp [hne]

theorem lexCmp_lt_iff (a b : List Nat) : lexCmp a b = .lt ↔ List.Lex (· < ·) a b := by
  induction a generalizing b with
  | nil =>
    cases b with
    | nil =>
      constructor
      · intro h; simp [lexCmp] at h
      · intro h; cases h
    | cons y ys => exact iff_of_true rfl List.Lex.nil
  | cons x xs ih =>
    cases b with
    | nil =>
      constructor
      · intro h; simp [lexCmp] at h
      · intro h; cases h
    | cons y ys =>
      simp only [lexCmp]
      rcases h : compare x y with _ | _ | _
      · have hxy : x < y := Nat.compare_eq_lt.mp h
        exact iff_of_true rfl (List.Lex.rel hxy)
      · have he : x = y := Nat.compare_eq_eq.mp h
        subst he
        rw [ih]
        constructor
        · exact fun hl => List.Lex.cons hl
        · intro hl
          cases hl with
          | cons hl2 => exact hl2
          | rel hr => exact absurd hr (lt_irrefl x)
      · have hyx : y < x := Nat.compare_eq_gt.mp h
        constructor
        · intro hc; cases hc
        · intro hl
          cases hl with
          | cons hl2 => exact absurd hyx (lt_irrefl _)
          | rel hr => exact absurd hr (by omega)

theorem treeCmp_swap (a b : List Nat) : treeCmp b a = (treeCmp a b).swap := by
  simp only [treeCmp, min_comm b.length a.length]
  by_cases h : a.take (min a.length b.length) = b.take (min a.length b.length)
  · rw [if_pos h.symm, if_pos h, natCompare_swap]
  · rw [if_neg (fun he => h he.symm), if_neg h, lexCmp_swap]

theorem treeCmp_eq_iff (a b : List Nat) : treeCmp a b = .eq ↔ a = b := by
  simp only [treeCmp]
  by_cases h : a.take (min a.length b.length) = b.take (min a.length b.length)
  · rw [if_pos h]
    constructor
    · intro he
      have hcmp : compare a.length b.length = .eq := by
        cases hc : compare a.length b.length <;> rw [hc] at he <;>
          first | rfl | (simp [Ordering.swap] at he)
      have hlen : a.length = b.length := Nat.compare_eq_eq.mp hcmp
      have hm1 : min a.length b.length = a.length := by omega
      have hm2 : min a.length b.length = b.length := by omega
      calc a = a.take (min a.length b.length) := by rw [hm1, List.take_length]
        _ = b.take (min a.length b.length) := h
        _ = b := by rw [hm2, List.take_length]
    · intro he
      subst he
      rw [Nat.compare_eq_eq.mpr rfl]
      rfl
  · rw [if_neg h]
    constructor
    · intro he
      exact absurd ((lexCmp_eq_iff a b).mp he) fun hab => h (by rw [hab])
    · intro he
      subst he
      exact absurd rfl h

theorem treeCmp_lt_iff (a b : List Nat) : treeCmp a b = .lt ↔ specTreeLt a b := by
  simp only [treeCmp]
  by_cases h : a.take (min a.length b.length) = b.take (min a.length b.length)
  · rw [if_pos h]
    rcases Nat.lt_trichotomy a.length b.length with hl | hl | hl
    · have hm : min a.length b.length = a.length := by omega
      rw [hm, List.take_length] at h
      have hab : a <+: b := by
        rw [h]
        exact List.take_prefix _ _
      apply iff_of_false
      · rw [Nat.compare_eq_lt.mpr hl]
        intro he
        cases he
      · intro hs
        rcases hs with ⟨hba, _⟩ | ⟨hnab, _, _⟩
        · have := hba.length_le
          omega
        · exact absurd hab hnab
    · have hm : min a.length b.length = a.length := by omega
      rw [hm, List.take_length] at h
      have hab : a = b := by rw [h, hl, List.take_length]
      subst hab
      apply iff_of_false
      · rw [Nat.compare_eq_eq.mpr rfl]
        intro he
        cases he
      · intro hs
        rcases hs with ⟨_, hne⟩ | ⟨hnab, _, _⟩
        · exact absurd rfl hne
        · exact absurd (List.prefix_refl a) hnab
    · have hm : min a.length b.length = b.length := by omega
      rw [hm, List.take_length] at h
      have hba : b <+: a := by
        rw [← h]
        exact List.take_prefix _ _
      apply iff_of_true
      · rw [Nat.compare_eq_gt.mpr hl]
        rfl
      · refine Or.inl ⟨hba, fun he => ?_⟩
        rw [he] at hl
        omega
  · rw [if_neg h]
    have hnab : ¬ a <+: b := by
      intro hp
      have hm : min a.length b.length = a.length := by
        have := hp.length_le
        omega
      apply h
      rw [hm, List.take_length]
      exact List.prefix_iff_eq_take.mp hp
    have hnba : ¬ b <+: a := by
      intro hp
      have hm : min a.length b.length = b.length := by
        have := hp.length_le
        omega
      apply h
      rw [hm, List.take_length]
      exact (List.prefix_iff_eq_take.mp hp).symm
    rw [lexCmp_lt_iff]
    constructor
    · intro hl
      exact Or.inr ⟨hnab, hnba, hl⟩
    · intro hs
      rcases hs with ⟨hba, _⟩ | ⟨_, _, hl⟩
      · exact absurd hba hnba
      · exact hl

theorem specTreeLt_asymm {a b : List Nat} (h1 : specTreeLt a b) (h2 : specTreeLt b a) :
    False := by
  have e1 := (treeCmp_lt_iff a b).mpr h1
  have e2 := (treeCmp_lt_iff b a).mpr h2
  rw [treeCmp_swap, e1] at e2
  cases e2

theorem lexCmp_trans {a b c : List Nat} (h1 : lexCmp a b = .lt) (h2 : lexCmp b c = .lt) :
    lexCmp a c = .lt := by
  induction a generalizing b c with
  | nil =>
    cases c with
    | nil =>
      cases b with
      | nil => simpa using h1
      | cons y ys => simp [lexCmp] at h2
    | cons z zs => rfl
  | cons x xs ih =>
    cases b with
    | nil => simp [lexCmp] at h1
    | cons y ys =>
      cases c with
      | nil => simp [lexCmp] at h2
      | cons z zs =>
        simp only [lexCmp] at h1 h2 ⊢
        rcases hxy : compare x y with _ | _ | _ <;> rw [hxy] at h1
        · rcases hyz : compare y z with _ | _ | _ <;> rw [hyz] at h2
          · have : x < z := by
              have := Nat.compare_eq_lt.mp hxy
              have := Nat.compare_eq_lt.mp hyz
              omega
            rw [Nat.compare_eq_lt.mpr this]
          · have he := Nat.compare_eq_eq.mp hyz
            subst he
            rw [hxy]
          · cases h2
        · have he := Nat.compare_eq_eq.mp hxy
          subst he
          rcases hyz : compare x z with _ | _ | _ <;> rw [hyz] at h2
          · exact ih h1 h2
          · cases h2
        · cases h1

theorem compare_succ_succ (n m : Nat) : compare (n + 1) (m + 1) = compare n m := by
  rcases Nat.lt_trichotomy n m with h | h | h
  · rw [Nat.compare_eq_lt.mpr h, Nat.compare_eq_lt.mpr (by omega)]
  · subst h
    rw [Nat.compare_eq_eq.mpr rfl, Nat.compare_eq_eq.mpr rfl]
  · rw [Nat.compare_eq_gt.mpr h, Nat.compare_eq_gt.mpr (by omega)]

/-- On genuine byte strings the tree comparator is the plain
lexicographic order after appending a sentinel larger than every byte
(this is what makes the longer-prefix-first tie-break transitive). -/
theorem treeCmp_enc (a : List Nat) : ∀ (b : List Nat),
    (∀ x ∈ a, x < 256) → (∀ x ∈ b, x < 256) →
    treeCmp a b = lexCmp (a ++ [256]) (b ++ [256]) := by
  induction a with
  | nil =>
    intro b _ hb
    cases b with
    | nil => decide
    | cons y ys =>
      have hy : y < 256 := hb y (by simp)
      have hL : treeCmp [] (y :: ys) = .gt := by
        simp only [treeCmp, List.length_nil, Nat.zero_min, List.take_zero, if_pos rfl,
          List.length_cons]
        rw [Nat.compare_eq_lt.mpr (Nat.succ_pos _)]
        rfl
      rw [hL]
      simp only [List.nil_append, List.cons_append, lexCmp]
      rw [Nat.compare_eq_gt.mpr hy]
  | cons x xs ih =>
    intro b ha hb
    have hx : x < 256 := ha x (by simp)
    cases b with
    | nil =>
      have hL : treeCmp (x :: xs) [] = .lt := by
        simp only [treeCmp, List.length_nil, Nat.min_zero, List.take_zero, if_pos rfl,
          List.length_cons]
        rw [Nat.compare_eq_gt.mpr (Nat.succ_pos _)]
        rfl
      rw [hL]
      simp only [List.nil_append, List.cons_append, lexCmp]
      rw [Nat.compare_eq_lt.mpr hx]
    | cons y ys =>
      by_cases hxy : x = y
      · subst hxy
        have h1 : treeCmp (x :: xs) (x :: ys) = treeCmp xs ys := by
          simp only [treeCmp, List.length_cons, Nat.succ_min_succ, List.take_succ_cons,
            List.cons.injEq, true_and, compare_succ_succ, lexCmp, Nat.compare_eq_eq.mpr rfl]
        have h2 : lexCmp ((x :: xs) ++ [256]) ((x :: ys) ++ [256]) =
            lexCmp (xs ++ [256]) (ys ++ [256]) := by
          simp only [List.cons_append, lexCmp, Nat.compare_eq_eq.mpr rfl, List.append_eq]
        rw [h1, h2]
        exact ih ys (fun z hz => ha z (by simp [hz])) (fun z hz => hb z (by simp [hz]))
      · have hcond : ¬((x :: xs).take (min (x :: xs).length (y :: ys).length) =
            (y :: ys).take (min (x :: xs).length (y :: ys).length)) := by
          simp only [List.length_cons, Nat.succ_min_succ, List.take_succ_cons,
            List.cons.injEq]
          intro hcon
          exact hxy hcon.1
        have hL : treeCmp (x :: xs) (y :: ys) = lexCmp (x :: xs) (y :: ys) := by
          simp only [treeCmp, if_neg hcond]
        rw [hL]
        simp only [lexCmp, List.cons_append]
        rcases hc : compare x y with _ | _ | _
        · rfl
        · exact absurd (Nat.compare_eq_eq.mp hc) hxy
        · rfl

/-- The "comes no later" relation induced by the source comparator. -/
def entryLe (x y : TEntry) : Prop := treeCmp x.name y.name ≠ .gt

theorem treeCmp_le_trans {a b c : List Nat}
    (ha : ∀ x ∈ a, x < 256) (hb : ∀ x ∈ b, x < 256) (hc : ∀ x ∈ c, x < 256)
    (h1 : treeCmp a b ≠ .gt) (h2 : treeCmp b c ≠ .gt) : treeCmp a c ≠ .gt := by
  rw [treeCmp_enc a b ha hb] at h1
  rw [treeCmp_enc b c hb hc] at h2
  rw [treeCmp_enc a c ha hc]
  rcases e1 : lexCmp (a ++ [256]) (b ++ [256]) with _ | _ | _
  · rcases e2 : lexCmp (b ++ [256]) (c ++ [256]) with _ | _ | _
    · rw [lexCmp_trans e1 e2]
      simp
    · have hbc := (lexCmp_eq_iff _ _).mp e2
      rw [← hbc, e1]
      simp
    · rw [e2] at h2
      exact absurd rfl h2
  · have hab := (lexCmp_eq_iff _ _).mp e1
    rw [hab]
    exact h2
  · rw [e1] at h1
    exact absurd rfl h1

theorem insertEntry_perm (e : TEntry) (l : List TEntry) :
    (insertEntry e l).Perm (e :: l) := by
  induction l with
  | nil => exact List.Perm.refl _
  | cons x xs ih =>
    simp only [insertEntry]
    rcases hc : treeCmp e.name x.name with _ | _ | _
    · exact List.Perm.refl _
    · exact List.Perm.refl _
    · exact (ih.cons x).trans (List.Perm.swap e x xs)

theorem sortEntries_perm (l : List TEntry) : (sortEntries l).Perm l := by
  induction l with
  | nil => exact List.Perm.refl _
  | cons x xs ih => exact (insertEntry_perm x (sortEntries xs)).trans (ih.cons x)

theorem insertEntry_sorted (e : TEntry) (l : List TEntry)
    (hbe : ∀ x ∈ e.name, x < 256)
    (hbl : ∀ f ∈ l, ∀ x ∈ f.name, x < 256)
    (hl : l.Pairwise entryLe) : (insertEntry e l).Pairwise entryLe := by
  induction l with
  | nil => simp [insertEntry]
  | cons x xs ih =>
    have hbx : ∀ z ∈ x.name, z < 256 := hbl x (by simp)
    have hbxs : ∀ f ∈ xs, ∀ z ∈ f.name, z < 256 := fun f hf => hbl f (by simp [hf])
    cases hl with
    | cons hx hxs =>
      simp only [insertEntry]
      rcases hcmp : treeCmp e.name x.name with _ | _ | _
      · refine List.Pairwise.cons ?_ (List.Pairwise.cons hx hxs)
        intro z hz
        rcases List.mem_cons.mp hz with rfl | hz2
        · simp [entryLe, hcmp]
        · exact treeCmp_le_trans hbe hbx (hbxs z hz2) (by simp [entryLe, hcmp]) (hx z hz2)
      · refine List.Pairwise.cons ?_ (List.Pairwise.cons hx hxs)
        intro z hz
        rcases List.mem_cons.mp hz with rfl | hz2
        · simp [entryLe, hcmp]
        · exact treeCmp_le_trans hbe hbx (hbxs z hz2) (by simp [entryLe, hcmp]) (hx z hz2)
      · refine List.Pairwise.cons ?_ (ih hbxs hxs)
        intro z hz
        have hz2 := (insertEntry_perm e xs).subset hz
        rcases List.mem_cons.mp hz2 with rfl | hz3
        · have : treeCmp x.name z.name = .lt := by
            rw [treeCmp_swap, hcmp]
            rfl
          simp [entryLe, this]
        · exact hx z hz3

theorem sortEntries_sorted (l : List TEntry)
    (hbl : ∀ f ∈ l, ∀ x ∈ f.name, x < 256) : (sortEntries l).Pairwise entryLe := by
  induction l with
  | nil => simp [sortEntries]
  | cons x xs ih =>
    have hbxs : ∀ f ∈ xs, ∀ z ∈ f.name, z < 256 := fun f hf => hbl f (by simp [hf])
    have hbsort : ∀ f ∈ sortEntries xs, ∀ z ∈ f.name, z < 256 := fun f hf =>
      hbxs f ((sortEntries_perm xs).subset hf)
    exact insertEntry_sorted x (sortEntries xs) (hbl x (by simp)) hbsort (ih hbxs)

theorem sortEntries_spec_sorted (l : List TEntry)
    (hbl : ∀ f ∈ l, ∀ x ∈ f.name, x < 256)
    (hnd : (l.map TEntry.name).Nodup) :
    (sortEntries l).Pairwise (fun x y => specTreeLt x.name y.name) := by
  have hs := sortEntries_sorted l hbl
  have hperm := sortEntries_perm l
  have hnd2 : ((sortEntries l).map TEntry.name).Nodup :=
    ((hperm.map TEntry.name).nodup_iff).mpr hnd
  have hne : (sortEntries l).Pairwise (fun a b => a.name ≠ b.name) :=
    List.pairwise_map.mp hnd2
  refine (hs.and hne).imp ?_
  rintro a b ⟨hle, hab⟩
  rcases hc : treeCmp a.name b.name with _ | _ | _
  · exact (treeCmp_lt_iff _ _).mp hc
  · exact absurd ((treeCmp_eq_iff _ _).mp hc) hab
  · exact absurd hc hle

theorem sorted_perm_eq : ∀ l1 l2 : List TEntry, l1.Perm l2 →
    l1.Pairwise (fun x y => specTreeLt x.name y.name) →
    l2.Pairwise (fun x y => specTreeLt x.name y.name) → l1 = l2 := by
  intro l1
  induction l1 with
  | nil =>
    intro l2 hp _ _
    exact (hp.symm.eq_nil).symm
  | cons x xs ih =>
    intro l2 hp h1 h2
    cases l2 with
    | nil => cases hp.eq_nil
    | cons y ys =>
      cases h1 with
      | cons hx1 hxs1 =>
        cases h2 with
        | cons hy2 hys2 =>
          have hxy : x = y := by
            by_contra hne
            have hxmem : x ∈ y :: ys := hp.subset (List.mem_cons_self x xs)
            have hymem : y ∈ x :: xs := hp.symm.subset (List.mem_cons_self y ys)
            have hx2 : x ∈ ys := by
              rcases List.mem_cons.mp hxmem with h | h
              · exact absurd h hne
              · exact h
            have hy1 : y ∈ xs := by
              rcases List.mem_cons.mp hymem with h | h
              · exact absurd h.symm hne
              · exact h
            exact specTreeLt_asymm (hx1 y hy1) (hy2 x hx2)
          subst hxy
          rw [ih ys hp.cons_inv hxs1 hys2]

/-- C2: the tree builder's emitted entry sequence is a permutation of the
collected entries that is sorted by name bytes with the
longer-prefix-first tie-break, it is the only such permutation (for
distinct names), and the emitted body is exactly its encoding. -/
theorem c2_tree_order (entries : List TEntry)
    (hbytes : ∀ e ∈ entries, ∀ x ∈ e.name, x < 256)
    (hnd : (entries.map TEntry.name).Nodup) :
    (sortEntries entries).Perm entries ∧
    (sortEntries entries).Pairwise (fun x y => specTreeLt x.name y.name) ∧
    (∀ l : List TEntry, l.Perm entries →
      l.Pairwise (fun x y => specTreeLt x.name y.name) → l = sortEntries entries) ∧
    treeBody entries = ((sortEntries entries).map encodeEntry).flatten := by
  refine ⟨sortEntries_perm entries, sortEntries_spec_sorted entries hbytes hnd, ?_, rfl⟩
  intro l hlp hls
  exact sorted_perm_eq l (sortEntries entries)
    (hlp.trans (sortEntries_perm entries).symm) hls
    (sortEntries_spec_sorted entries hbytes hnd)

def c2Ex : List TEntry :=
  [⟨100644, strB "ab", List.replicate 20 1⟩,
   ⟨100644, strB "a", List.replicate 20 2⟩,
   ⟨40000, strB "b", List.replicate 20 3⟩]

theorem c2_tree_order_witness :
    (sortEntries c2Ex).Perm c2Ex ∧
    (sortEntries c2Ex).Pairwise (fun x y => specTreeLt x.name y.name) :=
  ⟨(c2_tree_order c2Ex (by decide) (by decide)).1,
   (c2_tree_order c2Ex (by decide) (by decide)).2.1⟩

/-! ## C1 / C9 — loose-object store round-trip
(`src/cmds/hash_object.rs`, `src/utils.rs`, `src/cmds/cat_file.rs`) -/

inductive Kind
  | blob
  | commit
  | tree
  | tag
deriving DecidableEq

def kindBytes : Kind → List Nat
  | .blob => strB "blob"
  | .commit => strB "commit"
  | .tree => strB "tree"
  | .tag => strB "tag"

/-- The framed object `"<kind> <decimal-size>\0<body>"` over which the
digest is computed and which is compressed into the store. -/
def frame (k : Kind) (body : List Nat) : List Nat :=
  kindBytes k ++ [32] ++ decDigits body.length ++ [0] ++ body

/-- The loose-object store: entries keyed by (2-char subdirectory,
38-char filename), holding the framed bytes (zlib compression
round-trips, so the inflated bytes are stored).  `create_object`
removes any prior file at the path and re-creates it, so the most
recent write (the head of the list) shadows older ones. -/
abbrev Store := List ((List Nat × List Nat) × List Nat)

/-- `hash_object` with `write == true`: hash the framed object (SHA-1
and hex rendering abstracted as `hashFn`, which yields the 40-char
lowercase hex digest) and write the framed bytes at
`objects/<first 2 chars>/<other 38 chars>`. -/
def insertObject (hashFn : List Nat → List Nat) (k : Kind) (body : List Nat)
    (st : Store) : Store :=
  let d := hashFn (frame k body)
  ((d.take 2, d.drop 2), frame k body) :: st

/-- `parse_type` of `src/cmds/cat_file.rs`: nom `alt` over the four kind
tags, in source order. -/
def parseTypeK (s : List Nat) : Option (Kind × List Nat) :=
  if (strB "blob").isPrefixOf s then some (.blob, s.drop 4)
  else if (strB "tree").isPrefixOf s then some (.tree, s.drop 4)
  else if (strB "commit").isPrefixOf s then some (.commit, s.drop 6)
  else if (strB "tag").isPrefixOf s then some (.tag, s.drop 3)
  else none

/-- nom `char(c)`. -/
def pChar (c : Nat) : List Nat → Option (List Nat)
  | b :: rest => if b = c then some rest else none
  | [] => none

/-- nom `digit1` followed by `str::parse::<usize>` (usize is 64-bit). -/
def parseSizeB (s : List Nat) : Option (Nat × List Nat) :=
  let ds := s.takeWhile isDigitB
  if ds = [] then none
  else if decVal ds < 2 ^ 64 then some (decVal ds, s.dropWhile isDigitB)
  else none

/-- `cat_file` with `-t`: `read_exact` of 64 bytes from the inflating
reader (which fails when fewer than 64 bytes can be produced), then
`parse_type`. -/
def catFileType (bytes : List Nat) : Option Kind :=
  if bytes.length < 64 then none
  else (parseTypeK (bytes.take 64)).map (·.1)

/-- `cat_file` with `-s`: `read_exact` of 64 bytes, `parse_type`, one
space, then `parse_size`. -/
def catFileSize (bytes : List Nat) : Option Nat :=
  if bytes.length < 64 then none
  else
    (parseTypeK (bytes.take 64)).bind fun tr =>
    (pChar 32 tr.2).bind fun r2 =>
    (parseSizeB r2).map (·.1)

/-- `cat_file` with `-p` (`parse_contents`): `read_to_end`, then type,
space, size, NUL, and the remaining byte count must equal the declared
size. -/
def catFilePrint (bytes : List Nat) : Option (List Nat) :=
  (parseTypeK bytes).bind fun tr =>
  (pChar 32 tr.2).bind fun r2 =>
  (parseSizeB r2).bind fun sr =>
  (pChar 0 sr.2).bind fun r4 =>
  if r4.length = sr.1 then some r4 else none

/-- The object lookup done inside `cat_file` (the same two-level search
as `find_object`), over the store. -/
def catLocate (st : Store) (hash : List Nat) : Option (List Nat) :=
  if hash.length ≤ 3 then none
  else
    (st.find? fun e =>
      e.1.1 == hash.take 2 && e.1.2.length == 38 &&
        (hash.drop 2).isPrefixOf e.1.2).map (·.2)

def catFileT (st : Store) (hash : List Nat) : Option Kind :=
  (catLocate st hash).bind catFileType

def catFileS (st : Store) (hash : List Nat) : Option Nat :=
  (catLocate st hash).bind catFileSize

def catFileP (st : Store) (hash : List Nat) : Option (List Nat) :=
  (catLocate st hash).bind catFilePrint

theorem span_digits (ds : List Nat) (c : Nat) (rest : List Nat)
    (hds : ∀ b ∈ ds, isDigitB b = true) (hc : isDigitB c = false) :
    (ds ++ c :: rest).takeWhile isDigitB = ds ∧
    (ds ++ c :: rest).dropWhile isDigitB = c :: rest := by
  induction ds with
  | nil => simp [List.takeWhile, List.dropWhile, hc]
  | cons d ds ih =>
    have hd : isDigitB d = true := hds d (by simp)
    obtain ⟨ht, hdr⟩ := ih fun b hb => hds b (by simp [hb])
    simp only [List.cons_append, List.takeWhile_cons, List.dropWhile_cons, hd]
    simp [ht, hdr]

theorem parseSizeB_digits (n : Nat) (c : Nat) (rest : List Nat)
    (hn : n < 2 ^ 64) (hc : isDigitB c = false) :
    parseSizeB (decDigits n ++ c :: rest) = some (n, c :: rest) := by
  obtain ⟨ht, hd⟩ := span_digits (decDigits n) c rest (decDigits_all_digits n) hc
  simp only [parseSizeB, ht, hd]
  rw [if_neg (decDigits_ne_nil n), decVal_decDigits, if_pos hn]

theorem parseTypeK_frame (k : Kind) (r : List Nat) :
    parseTypeK (kindBytes k ++ r) = some (k, r) := by
  cases k <;> simp [parseTypeK, kindBytes, strB, List.isPrefixOf]

theorem frame_assoc (k : Kind) (b : List Nat) :
    frame k b = kindBytes k ++ (32 :: (decDigits b.length ++ (0 :: b))) := by
  simp [frame]

theorem catFilePrint_frame (k : Kind) (b : List Nat) (hb : b.length < 2 ^ 64) :
    catFilePrint (frame k b) = some b := by
  rw [frame_assoc k b]
  simp only [catFilePrint, parseTypeK_frame, Option.some_bind, pChar, if_true]
  rw [parseSizeB_digits b.length 0 b hb (by decide)]
  simp

theorem decDigits_length_le : ∀ (k n : Nat), n < 10 ^ (k + 1) →
    (decDigits n).length ≤ k + 1 := by
  intro k
  induction k with
  | zero =>
    intro n hn
    rw [decDigits_eq, if_pos (by simpa using hn)]
    simp
  | succ k ih =>
    intro n hn
    rw [decDigits_eq]
    split
    · simp
    · have hdiv : n / 10 < 10 ^ (k + 1) := by
        rw [Nat.div_lt_iff_lt_mul (by norm_num)]
        calc n < 10 ^ (k + 2) := hn
          _ = 10 ^ (k + 1) * 10 := by ring
      have := ih (n / 10) hdiv
      simp only [List.length_append, List.length_singleton]
      omega

theorem kindBytes_length_le (k : Kind) : (kindBytes k).length ≤ 6 := by
  cases k <;> simp [kindBytes, strB]

theorem frame_take64 (k : Kind) (b : List Nat) (hb : b.length < 2 ^ 64)
    (_h64 : 64 ≤ (frame k b).length) :
    ∃ btail, (frame k b).take 64 =
      kindBytes k ++ (32 :: (decDigits b.length ++ (0 :: btail))) := by
  have hdl : (decDigits b.length).length ≤ 20 := by
    have h20 : b.length < 10 ^ 20 := by
      calc b.length < 2 ^ 64 := hb
        _ < 10 ^ 20 := by norm_num
    exact decDigits_length_le 19 b.length h20
  have hkl := kindBytes_length_le k
  refine ⟨b.take (64 - (kindBytes k).length - 1 - (decDigits b.length).length - 1), ?_⟩
  rw [frame_assoc k b]
  rw [List.take_append_eq_append_take,
    List.take_of_length_le (l := kindBytes k) (by omega)]
  congr 1
  rw [List.take_cons (by omega)]
  congr 1
  rw [List.take_append_eq_append_take,
    List.take_of_length_le (l := decDigits b.length) (by omega)]
  congr 1
  rw [List.take_cons (by omega)]

theorem catFileType_frame (k : Kind) (b : List Nat) (hb : b.length < 2 ^ 64)
    (h64 : 64 ≤ (frame k b).length) :
    catFileType (frame k b) = some k := by
  obtain ⟨btail, htake⟩ := frame_take64 k b hb h64
  rw [catFileType, if_neg (by omega), htake, parseTypeK_frame]
  rfl

theorem catFileSize_frame (k : Kind) (b : List Nat) (hb : b.length < 2 ^ 64)
    (h64 : 64 ≤ (frame k b).length) :
    catFileSize (frame k b) = some b.length := by
  obtain ⟨btail, htake⟩ := frame_take64 k b hb h64
  rw [catFileSize, if_neg (by omega), htake, parseTypeK_frame]
  simp only [Option.some_bind, pChar, if_true]
  rw [parseSizeB_digits b.length 0 btail hb (by decide)]
  rfl

theorem catLocate_insert (hashFn : List Nat → List Nat) (k : Kind) (b : List Nat)
    (st : Store) (hlen : (hashFn (frame k b)).length = 40) :
    catLocate (insertObject hashFn k b st) (hashFn (frame k b)) = some (frame k b) := by
  rw [catLocate, if_neg (by omega)]
  have hfind : List.find? (fun e =>
      e.1.1 == (hashFn (frame k b)).take 2 && e.1.2.length == 38 &&
        ((hashFn (frame k b)).drop 2).isPrefixOf e.1.2)
      (insertObject hashFn k b st) =
      some (((hashFn (frame k b)).take 2, (hashFn (frame k b)).drop 2), frame k b) := by
    rw [insertObject]
    apply List.find?_cons_of_pos
    simp [List.length_drop, hlen, List.isPrefixOf_iff_prefix]
  rw [hfind]
  rfl

/-- C1 as stated is false: for a small object (here the empty blob,
framed as 7 bytes) `cat-file -t` fails even though the object was just
inserted, because it `read_exact`s 64 bytes; `-p` still returns the
body. -/
theorem c1_counterexample :
    catFileT (insertObject (fun _ => List.replicate 40 97) .blob [] [])
      (List.replicate 40 97) = none ∧
    catFileP (insertObject (fun _ => List.replicate 40 97) .blob [] [])
      (List.replicate 40 97) = some [] := by
  decide

/-- C1 (amended): after inserting the framed object, reading back by
its digest yields the body with `-p` for every body, and the kind and
size with `-t`/`-s` whenever the framed encoding is at least 64 bytes
long (for shorter encodings those modes fail, see C9). -/
theorem c1_store_roundtrip (hashFn : List Nat → List Nat) (st : Store) (k : Kind)
    (b : List Nat) (hd : (hashFn (frame k b)).length = 40) (hb : b.length < 2 ^ 64) :
    catFileP (insertObject hashFn k b st) (hashFn (frame k b)) = some b ∧
    (64 ≤ (frame k b).length →
      catFileT (insertObject hashFn k b st) (hashFn (frame k b)) = some k ∧
      catFileS (insertObject hashFn k b st) (hashFn (frame k b)) = some b.length) := by
  refine ⟨?_, fun h64 => ⟨?_, ?_⟩⟩
  · rw [catFileP, catLocate_insert hashFn k b st hd, Option.some_bind,
      catFilePrint_frame k b hb]
  · rw [catFileT, catLocate_insert hashFn k b st hd, Option.some_bind,
      catFileType_frame k b hb h64]
  · rw [catFileS, catLocate_insert hashFn k b st hd, Option.some_bind,
      catFileSize_frame k b hb h64]

theorem c1_store_roundtrip_witness :
    catFileP (insertObject (fun _ => List.replicate 40 97) .blob (List.replicate 60 7) [])
      (List.replicate 40 97) = some (List.replicate 60 7) ∧
    catFileT (insertObject (fun _ => List.replicate 40 97) .blob (List.replicate 60 7) [])
      (List.replicate 40 97) = some .blob ∧
    catFileS (insertObject (fun _ => List.replicate 40 97) .blob (List.replicate 60 7) [])
      (List.replicate 40 97) = some 60 := by
  have h := c1_store_roundtrip (fun _ => List.replicate 40 97) [] .blob
    (List.replicate 60 7) (by decide) (by decide)
  have h2 := h.2 (by decide)
  exact ⟨h.1, h2.1, by simpa using h2.2⟩

theorem frame_length (k : Kind) (b : List Nat) :
    (frame k b).length =
      (kindBytes k).length + (decDigits b.length).length + 2 + b.length := by
  simp [frame]
  omega

/-- C9: for stored objects whose framed encoding is shorter than 64
bytes, `-t` and `-s` fail (the 64-byte `read_exact` cannot be
satisfied), while `-p` succeeds and returns the body. -/
theorem c9_short_object (hashFn : List Nat → List Nat) (st : Store) (k : Kind)
    (b : List Nat) (hd : (hashFn (frame k b)).length = 40)
    (hsmall : (frame k b).length < 64) :
    catFileT (insertObject hashFn k b st) (hashFn (frame k b)) = none ∧
    catFileS (insertObject hashFn k b st) (hashFn (frame k b)) = none ∧
    catFileP (insertObject hashFn k b st) (hashFn (frame k b)) = some b := by
  have hb : b.length < 2 ^ 64 := by
    have := frame_length k b
    have : b.length ≤ (frame k b).length := by omega
    have h64 : (2 : Nat) ^ 64 = 18446744073709551616 := by norm_num
    omega
  refine ⟨?_, ?_, ?_⟩
  · rw [catFileT, catLocate_insert hashFn k b st hd, Option.some_bind,
      catFileType, if_pos hsmall]
  · rw [catFileS, catLocate_insert hashFn k b st hd, Option.some_bind,
      catFileSize, if_pos hsmall]
  · rw [catFileP, catLocate_insert hashFn k b st hd, Option.some_bind,
      catFilePrint_frame k b hb]

theorem c9_short_object_witness :
    catFileT (insertObject (fun _ => List.replicate 40 98) .blob [7] [])
      (List.replicate 40 98) = none ∧
    catFileS (insertObject (fun _ => List.replicate 40 98) .blob [7] [])
      (List.replicate 40 98) = none ∧
    catFileP (insertObject (fun _ => List.replicate 40 98) .blob [7] [])
      (List.replicate 40 98) = some [7] :=
  c9_short_object (fun _ => List.replicate 40 98) [] .blob [7] (by decide) (by decide)

/-! ## C7 — `commit` updates the HEAD-targeted branch ref
(`src/cmds/commit.rs`, `src/utils.rs`) -/

/-- A flat repository file system: full paths (byte strings) mapped to
file contents; a new write shadows older entries at the same path, as
`fs::write` truncates. -/
abbrev RepoFS := List (List Nat × List Nat)

def fsRead (fs : RepoFS) (p : List Nat) : Option (List Nat) :=
  (fs.find? (fun e => e.1 == p)).map (·.2)

def fsWrite (fs : RepoFS) (p c : List Nat) : RepoFS := (p, c) :: fs

/-- ASCII whitespace, as removed by `str::trim` on the ASCII contents
handled here. -/
def isWsB (b : Nat) : Bool := b == 32 || b == 9 || b == 10 || b == 13

/-- `str::trim`. -/
def trimB (s : List Nat) : List Nat :=
  ((s.dropWhile isWsB).reverse.dropWhile isWsB).reverse

/-- `str::strip_prefix`. -/
def stripPrefixB (pre s : List Nat) : Option (List Nat) :=
  if pre.isPrefixOf s then some (s.drop pre.length) else none

def headPath : List Nat := strB ".git/HEAD"

/-- `update_head` from `src/utils.rs`: read HEAD, trim it, strip the
`"ref: "` prefix (failing on a detached HEAD), and write `commit_hash`
to the file at `.git/<refpath>`. -/
def update_head (fs : RepoFS) (commitHash : List Nat) : Option RepoFS :=
  (fsRead fs headPath).bind fun headFile =>
  (stripPrefixB (strB "ref: ") (trimB headFile)).map fun refPath =>
  fsWrite fs (strB ".git/" ++ refPath) commitHash

/-- `get_head` from `src/utils.rs`: `none` on a missing HEAD file or a
detached HEAD; `some none` when the targeted branch file is absent. -/
def get_head (fs : RepoFS) : Option (Option (List Nat)) :=
  (fsRead fs headPath).bind fun headFile =>
  (stripPrefixB (strB "ref: ") (trimB headFile)).map fun refPath =>
  fsRead fs (strB ".git/" ++ refPath)

/-- Lowercase hex of half a byte (`write!("{byte:02x}")`). -/
def hexDigit (n : Nat) : Nat := if n < 10 then 48 + n else 87 + n

def hexByte (b : Nat) : List Nat := [hexDigit (b / 16), hexDigit (b % 16)]

/-- Lowercase hex rendering of a byte string, as `commit_tree` prints
the finalized digest. -/
def hexOfBytes (bs : List Nat) : List Nat := (bs.map hexByte).flatten

/-- The loose-object path used by `create_object`:
`.git/objects/<hex of byte 0>/<hex of bytes 1..20>`. -/
def objectPath (digest : List Nat) : List Nat :=
  strB ".git/objects/" ++ hexByte digest.headI ++ [47] ++ hexOfBytes digest.tail

/-- The high-level `commit` operation (`src/cmds/commit.rs`): read the
parent tip via `get_head`, build and store the commit object via
`commit_tree` (the object's bytes and its SHA-1 digest are abstracted
as parameters `objBytes`/`digest` here), then `update_head` with the
trimmed output of `commit_tree` — 40 hex chars plus a newline, which
`commit` trims before writing. -/
def commitCmd (fs : RepoFS) (digest objBytes : List Nat) : Option RepoFS :=
  (get_head fs).bind fun _parent =>
  update_head (fsWrite fs (objectPath digest) objBytes)
    (trimB (hexOfBytes digest ++ [10]))

theorem hexDigit_range (n : Nat) (h : n < 16) :
    (48 ≤ hexDigit n ∧ hexDigit n ≤ 57) ∨ (97 ≤ hexDigit n ∧ hexDigit n ≤ 102) := by
  unfold hexDigit
  split <;> omega

theorem hexOfBytes_length (bs : List Nat) : (hexOfBytes bs).length = 2 * bs.length := by
  induction bs with
  | nil => rfl
  | cons b t ih =>
    simp only [hexOfBytes, List.map_cons, List.flatten_cons, List.length_append,
      List.length_cons] at ih ⊢
    simp [hexByte] at ih ⊢
    omega

theorem hexOfBytes_chars (bs : List Nat) (hb : ∀ b ∈ bs, b < 256) :
    ∀ c ∈ hexOfBytes bs, (48 ≤ c ∧ c ≤ 57) ∨ (97 ≤ c ∧ c ≤ 102) := by
  induction bs with
  | nil => simp [hexOfBytes]
  | cons b t ih =>
    intro c hc
    simp only [hexOfBytes, List.map_cons, List.flatten_cons, List.mem_append] at hc
    rcases hc with hc | hc
    · have hb256 := hb b (by simp)
      simp only [hexByte, List.mem_cons, List.mem_singleton] at hc
      rcases hc with rfl | rfl | hfalse
      · exact hexDigit_range _ (by omega)
      · exact hexDigit_range _ (by omega)
      · cases hfalse
    · exact ih (fun z hz => hb z (by simp [hz])) c hc

theorem dropWhile_ws_eq_self (l : List Nat) (h : ∀ c ∈ l, isWsB c = false) :
    l.dropWhile isWsB = l := by
  cases l with
  | nil => rfl
  | cons a t => rw [List.dropWhile_cons, if_neg (by simp [h a (by simp)])]

theorem trimB_append_nl (xs : List Nat) (h : ∀ c ∈ xs, isWsB c = false) :
    trimB (xs ++ [10]) = xs := by
  cases xs with
  | nil => simp [trimB, List.dropWhile, isWsB]
  | cons x t =>
    have hx := h x (by simp)
    unfold trimB
    rw [List.cons_append, List.dropWhile_cons, if_neg (by simp [hx]), ← List.cons_append]
    have hrev : (x :: t ++ [10]).reverse = 10 :: (x :: t).reverse := by
      simp
    rw [hrev, List.dropWhile_cons, if_pos (by simp [isWsB])]
    rw [dropWhile_ws_eq_self _ (fun c hc => h c (List.mem_reverse.mp hc))]
    simp

/-- C7 as stated is false: after a successful `commit`, the branch ref
file contains the 40 hex characters with NO trailing newline (the
`commit` command trims the printed hash before `update_head` writes
it).  Here HEAD targets `refs/heads/main` and the digest is 20 zero
bytes. -/
theorem c7_counterexample :
    (commitCmd [(strB ".git/HEAD", strB "ref: refs/heads/main\n")]
        (List.replicate 20 0) []).bind
      (fun fs2 => fsRead fs2 (strB ".git/refs/heads/main")) =
      some (List.replicate 40 48) ∧
    List.replicate 40 48 ≠ List.replicate 40 48 ++ [10] := by
  decide

/-- C7 (amended): after every successful high-level commit, the branch
ref file targeted by HEAD's symbolic reference contains exactly the new
commit's 40-character lowercase hex digest and nothing else — in
particular no trailing newline, since `commit` trims the printed hash
before writing. -/
theorem c7_commit_ref (fs : RepoFS) (digest objBytes headFile refPath : List Nat)
    (hhead : fsRead fs headPath = some headFile)
    (hsym : stripPrefixB (strB "ref: ") (trimB headFile) = some refPath)
    (hd20 : digest.length = 20) (hdb : ∀ b ∈ digest, b < 256) :
    ∃ fs2, commitCmd fs digest objBytes = some fs2 ∧
      fsRead fs2 (strB ".git/" ++ refPath) = some (hexOfBytes digest) ∧
      (hexOfBytes digest).length = 40 ∧
      (∀ c ∈ hexOfBytes digest, (48 ≤ c ∧ c ≤ 57) ∨ (97 ≤ c ∧ c ≤ 102)) := by
  have hchars := hexOfBytes_chars digest hdb
  have hnws : ∀ c ∈ hexOfBytes digest, isWsB c = false := by
    intro c hc
    rcases hchars c hc with ⟨h1, h2⟩ | ⟨h1, h2⟩ <;> simp [isWsB] <;> omega
  have htrim : trimB (hexOfBytes digest ++ [10]) = hexOfBytes digest :=
    trimB_append_nl _ hnws
  have hlen : (hexOfBytes digest).length = 40 := by
    rw [hexOfBytes_length, hd20]
  have hobjne : (objectPath digest == headPath) = false := by
    rw [beq_eq_false_iff_ne]
    intro he
    have h1 : (objectPath digest).length = 54 := by
      have ht : digest.tail.length = 19 := by
        rw [List.length_tail, hd20]
      simp [objectPath, strB, hexByte, hexOfBytes_length, ht]
    have h2 : headPath.length = 9 := by decide
    rw [he, h2] at h1
    cases h1
  have hread1 : fsRead (fsWrite fs (objectPath digest) objBytes) headPath =
      some headFile := by
    simp only [fsRead, fsWrite, List.find?, hobjne]
    exact hhead
  refine ⟨fsWrite (fsWrite fs (objectPath digest) objBytes)
      (strB ".git/" ++ refPath) (hexOfBytes digest), ?_, ?_, hlen, hchars⟩
  · simp only [commitCmd, get_head, hhead, Option.some_bind, hsym,
      update_head, hread1, htrim]
    rfl
  · simp only [fsRead, fsWrite, List.find?, beq_self_eq_true]
    rfl

theorem c7_commit_ref_witness :
    ∃ fs2, commitCmd [(strB ".git/HEAD", strB "ref: refs/heads/main\n")]
        (List.replicate 20 255) [] = some fs2 ∧
      fsRead fs2 (strB ".git/" ++ strB "refs/heads/main") =
        some (hexOfBytes (List.replicate 20 255)) ∧
      (hexOfBytes (List.replicate 20 255)).length = 40 ∧
      (∀ c ∈ hexOfBytes (List.replicate 20 255),
        (48 ≤ c ∧ c ≤ 57) ∨ (97 ≤ c ∧ c ≤ 102)) :=
  c7_commit_ref [(strB ".git/HEAD", strB "ref: refs/heads/main\n")]
    (List.replicate 20 255) [] (strB "ref: refs/heads/main\n") (strB "refs/heads/main")
    (by decide) (by decide) (by decide) (by decide)

/-! ## C4 — the log walker (`src/cmds/log.rs`) -/

/-- A commit as the log walker manipulates it: digest (hex digests are
injectively coded as naturals), parent digests in order, timestamp. -/
structure LogCommit where
  hash : Nat
  parents : List Nat
  timestamp : Nat
deriving DecidableEq

/-- The repository's commit objects, keyed by digest. -/
abbrev CommitRepo := List (Nat × (List Nat × Nat))

def repoLookup (repo : CommitRepo) (h : Nat) : Option (List Nat × Nat) :=
  (repo.find? (fun e => e.1 == h)).map (·.2)

/-- `get_commits`: depth-first walk that recurses into every parent in
order and then pushes the commit itself.  There is no visited set, so a
commit reachable along several paths is pushed several times.  `fuel`
bounds the recursion depth (the source diverges on cyclic data; any
acyclic repository is fully traversed once `fuel` exceeds its depth). -/
def getCommits : Nat → CommitRepo → Nat → Option (List LogCommit)
  | 0, _, _ => none
  | fuel + 1, repo, h =>
    match repoLookup repo h with
    | none => none
    | some (parents, ts) =>
      (parents.foldl (fun acc p =>
        acc.bind fun l => (getCommits fuel repo p).map (l ++ ·)) (some [])).map
        fun l => l ++ [⟨h, parents, ts⟩]

/-- Stable insertion for descending timestamps: the new element goes
after every already-placed element with a timestamp that is not
smaller.  Folding this over the list reproduces the observable result
of the stable `sort_by_key(|c| Reverse(c.timestamp))`. -/
def insertByTsDesc (c : LogCommit) : List LogCommit → List LogCommit
  | [] => [c]
  | d :: ds =>
    if d.timestamp < c.timestamp then c :: d :: ds
    else d :: insertByTsDesc c ds

def sortByTsDesc (l : List LogCommit) : List LogCommit :=
  l.foldl (fun acc c => insertByTsDesc c acc) []

/-- `dedup_by(|left, right| left.hash == right.hash)`: keeps the first
of each CONSECUTIVE run of equal digests (each element is compared with
the last retained one). -/
def dedupAux (prev : LogCommit) : List LogCommit → List LogCommit
  | [] => []
  | y :: rest =>
    if y.hash = prev.hash then dedupAux prev rest
    else y :: dedupAux y rest

def dedupByHash : List LogCommit → List LogCommit
  | [] => []
  | x :: rest => x :: dedupAux x rest

/-- The commit list that `log` renders: DFS collection, stable sort by
descending timestamp, then consecutive dedup by digest. -/
def logOutput (repo : CommitRepo) (start fuel : Nat) : Option (List LogCommit) :=
  (getCommits fuel repo start).map fun commits => dedupByHash (sortByTsDesc commits)

/-- The failing repository: three commits with EQUAL timestamps —
commit 1 with no parents, commit 2 with parent 1, commit 3 with
parents [2, 1]. -/
def c4Repo : CommitRepo := [(1, ([], 5)), (2, ([1], 5)), (3, ([2, 1], 5))]

/-- C4 fails on the code: walking from commit 3 of `c4Repo`, the DFS
pushes [1, 2, 1, 3]; the stable sort leaves the order unchanged (all
timestamps are equal) and the consecutive `dedup_by` cannot remove the
second copy of commit 1 because commit 2 sits between the copies, so
the rendered log contains commit 1 twice. -/
theorem c4_duplicate_output :
    logOutput c4Repo 3 10 =
      some [⟨1, [], 5⟩, ⟨2, [1], 5⟩, ⟨1, [], 5⟩, ⟨3, [2, 1], 5⟩] ∧
    ((logOutput c4Repo 3 10).getD []).countP (fun c => c.hash == 1) = 2 := by
  decide

/-! ## C6 — pack ingestion size check (`src/cmds/clone.rs`) -/

inductive PackErr
  /-- `ensure!(size == out, ...)` — and the panics (out-of-bounds reads,
  `unreachable!()` on object types 0/5) are also modelled as failure -/
  | malformed
deriving DecidableEq

/-- The variable-length integer loop of the ingestor: `prev` is the
byte already consumed; while it has its MSB set, the next byte
contributes its low 7 bits shifted by `shift`.  Arithmetic is u64 in
release mode: the accumulator wraps mod 2^64 and the shift amount is
masked to 6 bits as `<<` on u64 does. -/
def readVar : List Nat → Nat → Nat → Nat → Option (Nat × List Nat)
  | [], prev, acc, _shift => if 128 ≤ prev then none else some (acc, [])
  | b :: bs, prev, acc, shift =>
    if 128 ≤ prev then
      readVar bs b ((acc + b % 128 * 2 ^ (shift % 64)) % 2 ^ 64) (shift + 7)
    else some (acc, b :: bs)

/-- One entry's type/size prefix: the first byte packs a 3-bit type in
bits 4..6 (`pack[index] << 1 >> 5` on u8) and the low 4 bits of the
size; continuation bytes extend the size 7 bits at a time. -/
def parseEntryHeader : List Nat → Option (Nat × Nat × List Nat)
  | [] => none
  | b :: bs => (readVar bs b (b % 16) 4).map fun sr => (b * 2 % 256 / 32, sr.1, sr.2)

/-- Consume the delta base reference: type 6 (`OFS_DELTA`) reads a
variable-length offset, type 7 (`REF_DELTA`) reads 20 bytes of base
digest; other types consume nothing.  `none` models the out-of-bounds
panics. -/
def skipDelta (otype : Nat) (r : List Nat) : Option (List Nat) :=
  if otype = 6 then
    match r with
    | [] => none
    | c :: cs => (readVar cs c (c % 128) 7).map (·.2)
  else if otype = 7 then
    if 20 ≤ r.length then some (r.drop 20) else none
  else some r

/-- The per-entry ingest loop of `clone`, over the pack bytes after the
12-byte header.  `inflate` abstracts the zlib decompressor: given the
remaining bytes it returns the inflated bytes and the count of
compressed bytes consumed, or `none` for a decode error (on which the
source `break`s out of the loop and finishes normally).  The trace
records `(declared size, inflated bytes)` for every entry that passed
the `ensure!(size == out)` check; delta entries are checked but then
skipped (`continue`). -/
def ingestPack (inflate : List Nat → Option (List Nat × Nat)) :
    Nat → List Nat → List (Nat × List Nat) → Except PackErr (List (Nat × List Nat))
  | 0, _, acc => .ok acc
  | fuel + 1, rest, acc =>
    if rest.length ≤ 20 then .ok acc
    else
      match parseEntryHeader rest with
      | none => .error .malformed
      | some (otype, size, r1) =>
        match skipDelta otype r1 with
        | none => .error .malformed
        | some r2 =>
          match inflate r2 with
          | none => .ok acc
          | some (d, consumed) =>
            if d.length = size then
              if otype = 6 ∨ otype = 7 then
                ingestPack inflate fuel (r2.drop consumed) acc
              else if 1 ≤ otype ∧ otype ≤ 4 then
                ingestPack inflate fuel (r2.drop consumed) (acc ++ [(size, d)])
              else .error .malformed
            else .error .malformed

/-- C6: in every successful ingest every processed entry's inflated
byte count equals the size decoded from its type/size prefix, and
whenever an entry inflates to a different byte count the whole ingest
fails. -/
theorem c6_pack_size_check (inflate : List Nat → Option (List Nat × Nat)) (fuel : Nat)
    (rest : List Nat) (acc : List (Nat × List Nat)) :
    (∀ res, ingestPack inflate fuel rest acc = .ok res →
      (∀ e ∈ acc, e.2.length = e.1) → ∀ e ∈ res, e.2.length = e.1) ∧
    (∀ otype size r1 r2 d consumed,
      20 < rest.length →
      parseEntryHeader rest = some (otype, size, r1) →
      skipDelta otype r1 = some r2 →
      inflate r2 = some (d, consumed) →
      d.length ≠ size →
      ingestPack inflate (fuel + 1) rest acc = .error .malformed) := by
  constructor
  · induction fuel generalizing rest acc with
    | zero =>
      intro res hok hacc
      simp only [ingestPack] at hok
      cases hok
      exact hacc
    | succ f ih =>
      intro res hok hacc
      simp only [ingestPack] at hok
      by_cases hlen : rest.length ≤ 20
      · rw [if_pos hlen] at hok
        cases hok
        exact hacc
      · rw [if_neg hlen] at hok
        cases hh : parseEntryHeader rest with
        | none =>
          simp only [hh] at hok
          cases hok
        | some v =>
          obtain ⟨otype, size, r1⟩ := v
          simp only [hh] at hok
          cases hsd : skipDelta otype r1 with
          | none =>
            simp only [hsd] at hok
            cases hok
          | some r2 =>
            simp only [hsd] at hok
            cases hin : inflate r2 with
            | none =>
              simp only [hin] at hok
              cases hok
              exact hacc
            | some dc =>
              obtain ⟨d, consumed⟩ := dc
              simp only [hin] at hok
              by_cases hdsz : d.length = size
              · rw [if_pos hdsz] at hok
                by_cases hdel : otype = 6 ∨ otype = 7
                · rw [if_pos hdel] at hok
                  exact ih _ _ res hok hacc
                · rw [if_neg hdel] at hok
                  by_cases hbase : 1 ≤ otype ∧ otype ≤ 4
                  · rw [if_pos hbase] at hok
                    refine ih _ _ res hok ?_
                    intro e he
                    rcases List.mem_append.mp he with he2 | he2
                    · exact hacc e he2
                    · simp only [List.mem_singleton] at he2
                      subst he2
                      exact hdsz
                  · rw [if_neg hbase] at hok
                    cases hok
              · rw [if_neg hdsz] at hok
                cases hok
  · intro otype size r1 r2 d consumed hlen hh hsd hin hne
    simp only [ingestPack]
    rw [if_neg (show ¬rest.length ≤ 20 by omega)]
    simp only [hh, hsd, hin]
    rw [if_neg hne]

def c6Inflate : List Nat → Option (List Nat × Nat) := fun r => some (r.take 3, 3)

theorem c6_pack_size_check_witness :
    ([7, 8, 9] : List Nat).length = 3 ∧
    ingestPack c6Inflate 5 (0 :: List.replicate 21 0) [] = .error .malformed := by
  constructor
  · exact (c6_pack_size_check c6Inflate 5 (19 :: ([7, 8, 9] ++ List.replicate 17 0)) []).1
      [(3, [7, 8, 9])] (by rfl) (by decide) (3, [7, 8, 9]) (by decide)
  · exact (c6_pack_size_check c6Inflate 4 (0 :: List.replicate 21 0) []).2
      0 0 (List.replicate 21 0) (List.replicate 21 0) [0, 0, 0] 3
      (by decide) (by decide) (by decide) (by decide) (by decide)

/-! ## C3 — commit round-trip
(`src/cmds/commit_tree.rs` builder, `src/parsing.rs` `parse_commit`) -/

/-- nom `tag(t)`. -/
def pTag (t s : List Nat) : Option (List Nat) :=
  if t.isPrefixOf s then some (s.drop t.length) else none

/-- nom `take_while_m_n(n, n, p)` (every use in `parse_commit` has
`m = n`). -/
def pTakeExact (n : Nat) (p : Nat → Bool) (s : List Nat) : Option (List Nat × List Nat) :=
  let t := (s.takeWhile p).take n
  if t.length = n then some (t, s.drop n) else none

/-- nom `take_until1(pat)` (recursive helper): the bytes before the
first occurrence of `pat`, leaving `pat` in the remaining input. -/
def pTakeUntil (pat : List Nat) : List Nat → Option (List Nat × List Nat)
  | [] => none
  | c :: rest =>
    if pat.isPrefixOf (c :: rest) then some ([], c :: rest)
    else
      match pTakeUntil pat rest with
      | some pr => some (c :: pr.1, pr.2)
      | none => none

/-- nom `take_until1(pat)`: additionally requires a non-empty slice. -/
def pTakeUntil1 (pat s : List Nat) : Option (List Nat × List Nat) :=
  match pTakeUntil pat s with
  | some ([], _) => none
  | some pr => some pr
  | none => none

/-- nom `digit1`. -/
def pDigit1 (s : List Nat) : Option (List Nat × List Nat) :=
  let ds := s.takeWhile isDigitB
  if ds = [] then none else some (ds, s.dropWhile isDigitB)

/-- nom `one_of(cs)`. -/
def pOneOf (cs : List Nat) : List Nat → Option (Nat × List Nat)
  | b :: rest => if cs.contains b then some (b, rest) else none
  | [] => none

/-- nom `newline`. -/
def pNewline (s : List Nat) : Option (List Nat) := pChar 10 s

/-- The fields `parse_commit` extracts (the `hash` field of the source
struct is populated by the caller, not the parser). -/
structure ParsedCommit where
  parents : List (List Nat)
  author : List Nat
  timestamp : Nat
  timezone : List Nat
  message : List Nat
deriving DecidableEq

/-- The `tree` parser: `"tree "`, a 40-hex-digit hash, a newline. -/
def pTreeLine (s : List Nat) : Option (List Nat) :=
  (pTag (strB "tree ") s).bind fun r1 =>
  (pTakeExact 40 isHexB r1).bind fun hr =>
  pNewline hr.2

/-- The `parent` parser: `"parent "`, a 40-hex-digit hash, a newline. -/
def pParentLine (s : List Nat) : Option (List Nat × List Nat) :=
  (pTag (strB "parent ") s).bind fun r1 =>
  (pTakeExact 40 isHexB r1).bind fun hr =>
  (pNewline hr.2).map fun r2 => (hr.1, r2)

/-- nom `many0(parent)`; `fuel` only bounds the iteration (each success
consumes input, so `s.length + 1` steps always suffice). -/
def pParentsAux : Nat → List Nat → List (List Nat) × List Nat
  | 0, s => ([], s)
  | fuel + 1, s =>
    match pParentLine s with
    | none => ([], s)
    | some (h, r) =>
      let pr := pParentsAux fuel r
      (h :: pr.1, pr.2)

def pParents (s : List Nat) : List (List Nat) × List Nat := pParentsAux (s.length + 1) s

/-- The `author` parser: name up to `" <"`, email up to `"> "`, both
checked by `str::from_utf8`, re-rendered as `format!("{name} <{email}>")`. -/
def pAuthor (s : List Nat) : Option (List Nat × List Nat) :=
  (pTag (strB "author ") s).bind fun r1 =>
  (pTakeUntil1 (strB " <") r1).bind fun nr =>
  (pTag (strB " <") nr.2).bind fun r2 =>
  (pTakeUntil1 (strB "> ") r2).bind fun er =>
  (pTag (strB "> ") er.2).bind fun r3 =>
  if validUtf8 nr.1 && validUtf8 er.1 then
    some (nr.1 ++ strB " <" ++ er.1 ++ [62], r3)
  else none

/-- The timestamp parser: `digit1`, a space, `str::parse::<u32>`. -/
def pTimestamp (s : List Nat) : Option (Nat × List Nat) :=
  (pDigit1 s).bind fun dr =>
  (pChar 32 dr.2).bind fun r2 =>
  if decVal dr.1 < 2 ^ 32 then some (decVal dr.1, r2) else none

/-- The timezone parser: `one_of("+-")`, four digits, a newline; the
result is the five bytes `sign :: digits`. -/
def pTimezone (s : List Nat) : Option (List Nat × List Nat) :=
  (pOneOf [43, 45] s).bind fun sr =>
  (pTakeExact 4 isDigitB sr.2).bind fun dr =>
  (pNewline dr.2).map fun r2 => (sr.1 :: dr.1, r2)

/-- The `committer` parser: skip one full line. -/
def pCommitterLine (s : List Nat) : Option (List Nat) :=
  (pTakeUntil1 [10] s).bind fun cr => pNewline cr.2

/-- The message parser: one newline (the blank line), then everything
that remains (`String::from_utf8_lossy` is the identity on the valid
UTF-8 that Rust `String`s always hold); the remainder is `b""`. -/
def pMessage (s : List Nat) : Option (List Nat × List Nat) :=
  (pNewline s).map fun r => (r, [])

/-- `parse_commit` from `src/parsing.rs`. -/
def parse_commit (s : List Nat) : Option (ParsedCommit × List Nat) :=
  (pTreeLine s).bind fun r1 =>
  let pr := pParents r1
  (pAuthor pr.2).bind fun ar =>
  (pTimestamp ar.2).bind fun tr =>
  (pTimezone tr.2).bind fun zr =>
  (pCommitterLine zr.2).bind fun r5 =>
  (pMessage r5).map fun mr =>
  (⟨pr.1, ar.1, tr.1, zr.1, mr.1⟩, mr.2)

/-- The `parent` lines emitted by `commit_tree`, in order. -/
def encodeParents (parents : List (List Nat)) : List Nat :=
  (parents.map fun p => strB "parent " ++ p ++ [10]).flatten

/-- The shared tail of the author and committer lines:
`"{name} <{email}> {unix-seconds} {±hhmm}"` (chrono's `%s %z`). -/
def identLine (name email : List Nat) (ts tzSign : Nat) (tzDigits : List Nat) : List Nat :=
  name ++ strB " <" ++ email ++ strB "> " ++ decDigits ts ++ [32] ++ tzSign :: tzDigits

/-- The commit body built by `commit_tree` (with an explicit tree
hash): tree line, parent lines, author line, committer line, blank
line, message.  The final `writeln!` emits
`"committer ... \n\n{message}"` plus its own trailing newline, so one
extra newline follows the message.  The clock is read for the author
and committer lines in one call here (the source calls
`Local::now()` twice in a row; both lines carry the same inputs in the
round-trip statement, and the parser only extracts the author line). -/
def commit_tree_contents (treeHex : List Nat) (parents : List (List Nat))
    (name email : List Nat) (ts tzSign : Nat) (tzDigits : List Nat)
    (message : List Nat) : List Nat :=
  strB "tree " ++ treeHex ++ [10] ++
  encodeParents parents ++
  strB "author " ++ identLine name email ts tzSign tzDigits ++ [10] ++
  strB "committer " ++ identLine name email ts tzSign tzDigits ++ [10] ++
  [10] ++ message ++ [10]

/-- C3 as stated is false: the message does NOT round-trip verbatim —
building a commit with message `"x"` and re-parsing yields message
`"x\n"`, because the final `writeln!` of `commit_tree` appends a
newline after the message. -/
theorem c3_counterexample :
    parse_commit (commit_tree_contents (List.replicate 40 97) [] (strB "A") (strB "e")
        0 43 [48, 48, 48, 48] [120]) =
      some (⟨[], strB "A <e>", 0, [43, 48, 48, 48, 48], [120, 10]⟩, []) ∧
    ([120, 10] : List Nat) ≠ [120] := by
  decide

theorem takeWhile_append_stop (p : Nat → Bool) (xs : List Nat) (c : Nat) (r : List Nat)
    (hxs : ∀ b ∈ xs, p b = true) (hc : p c = false) :
    (xs ++ c :: r).takeWhile p = xs ∧ (xs ++ c :: r).dropWhile p = c :: r := by
  induction xs with
  | nil => simp [List.takeWhile, List.dropWhile, hc]
  | cons d ds ih =>
    have hd : p d = true := hxs d (by simp)
    obtain ⟨ht, hdr⟩ := ih fun b hb => hxs b (by simp [hb])
    simp only [List.cons_append, List.takeWhile_cons, List.dropWhile_cons, hd]
    simp [ht, hdr]

theorem pTag_append (t r : List Nat) : pTag t (t ++ r) = some r := by
  simp [pTag, List.isPrefixOf_iff_prefix, List.prefix_append, List.drop_left]

theorem pTakeExact_append (n : Nat) (p : Nat → Bool) (xs : List Nat) (c : Nat)
    (r : List Nat) (hlen : xs.length = n) (hxs : ∀ b ∈ xs, p b = true)
    (hc : p c = false) :
    pTakeExact n p (xs ++ c :: r) = some (xs, c :: r) := by
  obtain ⟨ht, _⟩ := takeWhile_append_stop p xs c r hxs hc
  have hdrop : (xs ++ c :: r).drop n = c :: r := by
    rw [← hlen, List.drop_left]
  simp [pTakeExact, ht, hlen, List.take_of_length_le (le_of_eq hlen), hdrop]

theorem pTreeLine_encode (treeHex R : List Nat) (hlen : treeHex.length = 40)
    (hhex : ∀ c ∈ treeHex, isHexB c = true) :
    pTreeLine (strB "tree " ++ (treeHex ++ (10 :: R))) = some R := by
  rw [pTreeLine, pTag_append]
  simp only [Option.some_bind]
  rw [pTakeExact_append 40 isHexB treeHex 10 R hlen hhex (by decide)]
  simp [pNewline, pChar]

theorem pParentLine_encode (p R : List Nat) (hlen : p.length = 40)
    (hhex : ∀ c ∈ p, isHexB c = true) :
    pParentLine (strB "parent " ++ (p ++ (10 :: R))) = some (p, R) := by
  rw [pParentLine, pTag_append]
  simp only [Option.some_bind]
  rw [pTakeExact_append 40 isHexB p 10 R hlen hhex (by decide)]
  simp [pNewline, pChar]

theorem pParentLine_author (R : List Nat) :
    pParentLine (strB "author " ++ R) = none := by
  have hpre : (strB "parent ").isPrefixOf (strB "author " ++ R) = false := by
    simp [strB, List.isPrefixOf]
  simp [pParentLine, pTag, hpre]

theorem pParentsAux_encode (parents : List (List Nat)) (R : List Nat)
    (hpar : ∀ p ∈ parents, p.length = 40 ∧ ∀ c ∈ p, isHexB c = true)
    (hR : pParentLine R = none) :
    ∀ fuel, parents.length < fuel →
      pParentsAux fuel (encodeParents parents ++ R) = (parents, R) := by
  induction parents with
  | nil =>
    intro fuel hf
    match fuel with
    | f + 1 =>
      simp only [encodeParents, List.map_nil, List.flatten_nil, List.nil_append,
        pParentsAux, hR]
  | cons p ps ih =>
    intro fuel hf
    match fuel with
    | f + 1 =>
      obtain ⟨hp40, hphex⟩ := hpar p (by simp)
      have hshape : encodeParents (p :: ps) ++ R =
          strB "parent " ++ (p ++ (10 :: (encodeParents ps ++ R))) := by
        simp [encodeParents, List.append_assoc]
      simp only [pParentsAux, hshape, pParentLine_encode p _ hp40 hphex]
      rw [ih (fun q hq => hpar q (by simp [hq])) f (by simpa using hf)]

theorem encodeParents_length_ge (parents : List (List Nat)) :
    parents.length ≤ (encodeParents parents).length := by
  induction parents with
  | nil => simp [encodeParents]
  | cons p ps ih =>
    simp only [encodeParents, List.map_cons, List.flatten_cons, List.length_append,
      List.length_cons] at ih ⊢
    have : 1 ≤ (strB "parent " ++ p ++ [10]).length := by
      simp [strB]
    omega

theorem pParents_encode (parents : List (List Nat)) (R : List Nat)
    (hpar : ∀ p ∈ parents, p.length = 40 ∧ ∀ c ∈ p, isHexB c = true)
    (hR : pParentLine R = none) :
    pParents (encodeParents parents ++ R) = (parents, R) := by
  apply pParentsAux_encode parents R hpar hR
  have := encodeParents_length_ge parents
  simp only [List.length_append]
  omega

theorem pTakeUntil_space_angle : ∀ (name rest : List Nat), 60 ∉ name →
    pTakeUntil (strB " <") (name ++ (32 :: 60 :: rest)) = some (name, 32 :: 60 :: rest) := by
  have hpat : strB " <" = [32, 60] := rfl
  intro name
  induction name with
  | nil =>
    intro rest _
    rw [List.nil_append, pTakeUntil, if_pos (by rw [hpat]; simp [List.isPrefixOf])]
  | cons x nm ih =>
    intro rest h60
    have hpre : ((strB " <").isPrefixOf (x :: (nm ++ (32 :: 60 :: rest)))) = false := by
      rw [hpat]
      cases nm with
      | nil => simp [List.isPrefixOf]
      | cons y nm2 =>
        have hy : (60 == y) = false := by
          have : y ≠ 60 := fun he => h60 (by simp [he])
          simp [beq_eq_false_iff_ne]
          omega
        simp [List.isPrefixOf, hy]
    rw [List.cons_append, pTakeUntil, if_neg (by simp [hpre])]
    rw [ih rest (fun h => h60 (by simp [h]))]

theorem pTakeUntil_angle_space : ∀ (email rest : List Nat), 62 ∉ email →
    pTakeUntil (strB "> ") (email ++ (62 :: 32 :: rest)) = some (email, 62 :: 32 :: rest) := by
  have hpat : strB "> " = [62, 32] := rfl
  intro email
  induction email with
  | nil =>
    intro rest _
    rw [List.nil_append, pTakeUntil, if_pos (by rw [hpat]; simp [List.isPrefixOf])]
  | cons x em ih =>
    intro rest h62
    have hx : (62 == x) = false := by
      have : x ≠ 62 := fun he => h62 (by simp [he])
      simp [beq_eq_false_iff_ne]
      omega
    have hpre : ((strB "> ").isPrefixOf (x :: (em ++ (62 :: 32 :: rest)))) = false := by
      rw [hpat]
      simp [List.isPrefixOf, hx]
    rw [List.cons_append, pTakeUntil, if_neg (by simp [hpre])]
    rw [ih rest (fun h => h62 (by simp [h]))]

theorem pTakeUntil_nl : ∀ (line rest : List Nat), 10 ∉ line →
    pTakeUntil [10] (line ++ (10 :: rest)) = some (line, 10 :: rest) := by
  intro line
  induction line with
  | nil =>
    intro rest _
    rw [List.nil_append, pTakeUntil, if_pos (by simp [List.isPrefixOf])]
  | cons x ln ih =>
    intro rest h10
    have hx : (10 == x) = false := by
      have : x ≠ 10 := fun he => h10 (by simp [he])
      simp [beq_eq_false_iff_ne]
      omega
    have hpre : (([10] : List Nat).isPrefixOf (x :: (ln ++ (10 :: rest)))) = false := by
      simp [List.isPrefixOf, hx]
    rw [List.cons_append, pTakeUntil, if_neg (by simp [hpre])]
    rw [ih rest (fun h => h10 (by simp [h]))]

theorem pTakeUntil1_of (pat s pre post : List Nat)
    (h : pTakeUntil pat s = some (pre, post)) (hne : pre ≠ []) :
    pTakeUntil1 pat s = some (pre, post) := by
  rw [pTakeUntil1, h]
  cases pre with
  | nil => exact absurd rfl hne
  | cons a t => rfl

theorem pAuthor_encode (name email rest : List Nat)
    (hname : name ≠ []) (h60 : 60 ∉ name) (hvn : validUtf8 name = true)
    (hemail : email ≠ []) (h62 : 62 ∉ email) (hve : validUtf8 email = true) :
    pAuthor (strB "author " ++ (name ++ (32 :: 60 :: (email ++ (62 :: 32 :: rest))))) =
      some (name ++ strB " <" ++ email ++ [62], rest) := by
  rw [pAuthor, pTag_append]
  simp only [Option.some_bind]
  rw [pTakeUntil1_of (strB " <") _ name (32 :: 60 :: (email ++ (62 :: 32 :: rest)))
    (pTakeUntil_space_angle name _ h60) hname]
  simp only [Option.some_bind]
  rw [show (32 : Nat) :: 60 :: (email ++ (62 :: 32 :: rest)) =
    strB " <" ++ (email ++ (62 :: 32 :: rest)) from rfl, pTag_append]
  simp only [Option.some_bind]
  rw [pTakeUntil1_of (strB "> ") _ email (62 :: 32 :: rest)
    (pTakeUntil_angle_space email _ h62) hemail]
  simp only [Option.some_bind]
  rw [show (62 : Nat) :: 32 :: rest = strB "> " ++ rest from rfl, pTag_append]
  simp only [Option.some_bind, hvn, hve]
  simp

theorem pTimestamp_encode (ts : Nat) (rest : List Nat) (hts : ts < 2 ^ 32) :
    pTimestamp (decDigits ts ++ (32 :: rest)) = some (ts, rest) := by
  obtain ⟨ht, hd⟩ := takeWhile_append_stop isDigitB (decDigits ts) 32 rest
    (decDigits_all_digits ts) (by decide)
  rw [pTimestamp, pDigit1]
  simp only [ht, hd]
  rw [if_neg (decDigits_ne_nil ts)]
  simp [pChar, decVal_decDigits]
  omega

theorem pTimezone_encode (tzSign : Nat) (tzDigits rest : List Nat)
    (hsign : tzSign = 43 ∨ tzSign = 45) (hlen : tzDigits.length = 4)
    (hdig : ∀ b ∈ tzDigits, isDigitB b = true) :
    pTimezone (tzSign :: (tzDigits ++ (10 :: rest))) = some (tzSign :: tzDigits, rest) := by
  rw [pTimezone, pOneOf, if_pos (by rcases hsign with h | h <;> simp [h])]
  simp only [Option.some_bind]
  rw [pTakeExact_append 4 isDigitB tzDigits 10 rest hlen hdig (by decide)]
  simp [pNewline, pChar]

theorem pCommitterLine_encode (cl rest : List Nat) (hne : cl ≠ []) (h10 : 10 ∉ cl) :
    pCommitterLine (cl ++ (10 :: rest)) = some rest := by
  rw [pCommitterLine, pTakeUntil1_of [10] _ cl (10 :: rest) (pTakeUntil_nl cl rest h10) hne]
  simp [pNewline, pChar]

theorem ten_not_mem_committer_line (name email : List Nat) (ts tzSign : Nat)
    (tzDigits : List Nat) (h1 : 10 ∉ name) (h2 : 10 ∉ email)
    (hsign : tzSign = 43 ∨ tzSign = 45)
    (hdig : ∀ b ∈ tzDigits, isDigitB b = true) :
    10 ∉ strB "committer " ++ identLine name email ts tzSign tzDigits := by
  intro hmem
  simp only [identLine, List.append_assoc, List.mem_append, List.mem_cons,
    List.mem_singleton] at hmem
  rcases hmem with h | h | h | h | h | h | h | h
  · simp [strB] at h
  · exact h1 h
  · simp [strB] at h
  · exact h2 h
  · simp [strB] at h
  · have := decDigits_all_digits ts 10 h
    simp [isDigitB] at this
  · simp at h
  · rcases h with h | h
    · omega
    · have := hdig 10 h
      simp [isDigitB] at this

/-- C3 (amended): re-parsing a commit built by `commit_tree` returns
the same tree-typed fields — the parents in order, the author rendered
as `name <email>`, the timestamp and signed timezone — and the message
with exactly one extra trailing newline (appended by the final
`writeln!` of the builder), for well-formed inputs: 40-hex tree and
parent hashes, a non-empty UTF-8 name free of `<` and newlines, a
non-empty UTF-8 email free of `>` and newlines, a u32 timestamp, and a
sign plus four digits of timezone. -/
theorem c3_commit_roundtrip (treeHex : List Nat) (parents : List (List Nat))
    (name email : List Nat) (ts tzSign : Nat) (tzDigits message : List Nat)
    (htlen : treeHex.length = 40) (hthex : ∀ c ∈ treeHex, isHexB c = true)
    (hpar : ∀ p ∈ parents, p.length = 40 ∧ ∀ c ∈ p, isHexB c = true)
    (hn1 : name ≠ []) (hn2 : 60 ∉ name) (hn3 : 10 ∉ name) (hn4 : validUtf8 name = true)
    (he1 : email ≠ []) (he2 : 62 ∉ email) (he3 : 10 ∉ email) (he4 : validUtf8 email = true)
    (hts : ts < 2 ^ 32) (hsign : tzSign = 43 ∨ tzSign = 45)
    (hz1 : tzDigits.length = 4) (hz2 : ∀ b ∈ tzDigits, isDigitB b = true) :
    parse_commit (commit_tree_contents treeHex parents name email ts tzSign tzDigits
        message) =
      some (⟨parents, name ++ strB " <" ++ email ++ [62], ts, tzSign :: tzDigits,
             message ++ [10]⟩, []) := by
  have eSA : strB " <" = [32, 60] := rfl
  have eAS : strB "> " = [62, 32] := rfl
  have hshape : commit_tree_contents treeHex parents name email ts tzSign tzDigits
        message =
      strB "tree " ++ (treeHex ++ (10 :: (encodeParents parents ++
        (strB "author " ++ (name ++ (32 :: 60 :: (email ++ (62 :: 32 ::
          (decDigits ts ++ (32 :: (tzSign :: (tzDigits ++ (10 ::
            ((strB "committer " ++ identLine name email ts tzSign tzDigits) ++
              (10 :: (10 :: (message ++ [10]))))))))))))))))) := by
    simp [commit_tree_contents, identLine, eSA, eAS, List.append_assoc]
  rw [hshape, parse_commit]
  rw [pTreeLine_encode treeHex _ htlen hthex]
  simp only [Option.some_bind]
  rw [pParents_encode parents _ hpar (pParentLine_author _)]
  simp only
  rw [pAuthor_encode name email _ hn1 hn2 hn4 he1 he2 he4]
  simp only [Option.some_bind]
  rw [pTimestamp_encode ts _ hts]
  simp only [Option.some_bind]
  rw [pTimezone_encode tzSign tzDigits _ hsign hz1 hz2]
  simp only [Option.some_bind]
  rw [pCommitterLine_encode _ _
    (by
      intro hnil
      rw [List.append_eq_nil] at hnil
      have : strB "committer " ≠ [] := by decide
      exact this hnil.1)
    (ten_not_mem_committer_line name email ts tzSign tzDigits hn3 he3 hsign hz2)]
  simp only [Option.some_bind]
  simp [pMessage, pNewline, pChar]

theorem c3_commit_roundtrip_witness :
    parse_commit (commit_tree_contents (List.replicate 40 97) [List.replicate 40 98]
        (strB "Ann") (strB "a@b") 1700000000 43 [48, 48, 48, 48] (strB "hi")) =
      some (⟨[List.replicate 40 98], strB "Ann" ++ strB " <" ++ strB "a@b" ++ [62],
             1700000000, 43 :: [48, 48, 48, 48], strB "hi" ++ [10]⟩, []) :=
  c3_commit_roundtrip (List.replicate 40 97) [List.replicate 40 98]
    (strB "Ann") (strB "a@b") 1700000000 43 [48, 48, 48, 48] (strB "hi")
    (by decide) (by decide) (by decide) (by decide) (by decide) (by decide) (by decide)
    (by decide) (by decide) (by decide) (by decide) (by decide) (by decide)
    (by decide) (by decide)
